import Mathlib

/-!
Shallow embedding of `src/DMA_DAC_Render_PingPong/Oscillator.h`, a
floating-point sine wave table oscillator, and proofs of the spec's claims
about it.

Modelling choices:
* The C++ `float` accumulator state (`idx`, `idx_inc`, `fs`) is embedded as
  exact rationals (`ℚ`); the arithmetic the oscillator performs on them
  (add, subtract, compare, truncate) is exact in `ℚ`.
* The wave table holds `sin` values, which are transcendental, so the table
  is a function `ℕ → ℝ` and table entries live in `ℝ`.
* The C cast `(int)idx` truncates toward zero; `truncQ` below does the same.
* Reading `wavetable[i]` outside `[0, TAB_LEN)` is undefined behaviour in
  the C++ source; the embedded `render` returns `none` in that case and
  `some` of the table value otherwise.
* The private field `float f0;` is declared but never assigned by any member
  function; it is embedded as `Option ℚ` where `none` stands for the
  uninitialized state, and no operation ever writes it.
-/

namespace Osc

/-- `const uint16_t TAB_LEN = 2048;` -/
def TAB_LEN : ℕ := 2048

/-- `const float M_2PI = 6.2831853071795862319959f;` (a decimal literal
approximating 2*pi, embedded as the exact decimal value). -/
noncomputable def M_2PI : ℝ := 6.2831853071795862319959

/-- The table built by `table_init`: `wavetable[i] = sin(M_2PI * i / TAB_LEN)`
for `i` in `[0, TAB_LEN)` (the function is total on `ℕ`, but indices at or
beyond `TAB_LEN` are never read by the embedded `render`). -/
noncomputable def tableInitFun : ℕ → ℝ :=
  fun i => Real.sin (M_2PI * i / (TAB_LEN : ℝ))

/-- The oscillator's private state: wave table, current table index,
index increment, the never-assigned `f0` field, and the sample rate. -/
@[ext]
structure Oscillator where
  wavetable : ℕ → ℝ
  idx : ℚ
  idx_inc : ℚ
  f0 : Option ℚ
  fs : ℚ

/-- Truncation toward zero, the semantics of the C cast `(int)` applied to a
nonnegative-or-negative rational value. -/
def truncQ (q : ℚ) : ℤ := if 0 ≤ q then ⌊q⌋ else ⌈q⌉

/-- `void setF0(float f0_Hz) { idx_inc = TAB_LEN * f0_Hz / fs; }` -/
def Oscillator.setF0 (o : Oscillator) (f0_Hz : ℚ) : Oscillator :=
  { o with idx_inc := (TAB_LEN : ℚ) * f0_Hz / o.fs }

/-- The constructor `Oscillator(float sample_rate, float f0)`: member-init
list sets `fs` and `idx = 0`, then the body runs `table_init()` and
`setF0(f0)`.  The `idx_inc := 0` placeholder models the uninitialized field
before `setF0` overwrites it; `f0` is never assigned, hence `none`. -/
noncomputable def Oscillator.construct (sample_rate f0 : ℚ) : Oscillator :=
  Oscillator.setF0
    { wavetable := tableInitFun
      idx := 0
      idx_inc := 0
      f0 := none
      fs := sample_rate } f0

/-- `float render() { idx += idx_inc; if (idx >= TAB_LEN) idx = idx - TAB_LEN;
return wavetable[(int)idx]; }` — returns the sample (or `none` for an
out-of-bounds read, which is undefined behaviour in the source) together with
the updated state. -/
def Oscillator.render (o : Oscillator) : Option ℝ × Oscillator :=
  let idx1 := o.idx + o.idx_inc
  let idx2 := if (TAB_LEN : ℚ) ≤ idx1 then idx1 - (TAB_LEN : ℚ) else idx1
  let i := truncQ idx2
  (if 0 ≤ i ∧ i < (TAB_LEN : ℤ) then some (o.wavetable i.toNat) else none,
   { o with idx := idx2 })

/-- `n` successive render calls, tracking only the evolving state. -/
def Oscillator.renderN (o : Oscillator) : ℕ → Oscillator
  | 0 => o
  | n + 1 => ((o.renderN n).render).2

/-- One call of the oscillator's public interface. -/
inductive Op where
  | setF0 (f0_Hz : ℚ)
  | render

/-- Run a sequence of interface calls against a state. -/
def Oscillator.runOps (o : Oscillator) : List Op → Oscillator
  | [] => o
  | Op.setF0 g :: rest => (o.setF0 g).runOps rest
  | Op.render :: rest => ((o.render).2).runOps rest

/-- The render after `n` prior renders performs an out-of-bounds table read. -/
def oobAt (o : Oscillator) (n : ℕ) : Prop := ((o.renderN n).render).1 = none

/-- Some reachable render performs an out-of-bounds table read. -/
def reachesOOB (o : Oscillator) : Prop := ∃ n, oobAt o n

/-- A concrete oscillator state used to instantiate hypotheses of the
range-invariant theorems. -/
def osc0 : Oscillator :=
  { wavetable := fun _ => 0, idx := 5, idx_inc := 100, f0 := none, fs := 48000 }

/-- A concrete oscillator state whose table is the sine table built at
construction. -/
noncomputable def oscT : Oscillator :=
  { wavetable := tableInitFun, idx := 0, idx_inc := 1, f0 := none, fs := 48000 }

theorem render_snd_idx (o : Oscillator) :
    ((o.render).2).idx =
      if (TAB_LEN : ℚ) ≤ o.idx + o.idx_inc then o.idx + o.idx_inc - (TAB_LEN : ℚ)
      else o.idx + o.idx_inc := rfl

theorem render_snd_idx_inc (o : Oscillator) : ((o.render).2).idx_inc = o.idx_inc := rfl

theorem render_snd_wavetable (o : Oscillator) : ((o.render).2).wavetable = o.wavetable := rfl

theorem render_fst (o : Oscillator) :
    (o.render).1 =
      if 0 ≤ truncQ (((o.render).2).idx) ∧ truncQ (((o.render).2).idx) < (TAB_LEN : ℤ)
      then some (o.wavetable (truncQ (((o.render).2).idx)).toNat)
      else none := rfl

theorem construct_idx (sample_rate f0 : ℚ) : (Oscillator.construct sample_rate f0).idx = 0 := rfl

theorem construct_idx_inc (sample_rate f0 : ℚ) :
    (Oscillator.construct sample_rate f0).idx_inc = (TAB_LEN : ℚ) * f0 / sample_rate := rfl

/-- When the increment is at least `TAB_LEN` and the accumulator starts
nonnegative, every render call wraps exactly once, so after `n` calls the
accumulator has grown by `n` times the excess of the increment over
`TAB_LEN`. -/
theorem renderN_idx_of_tab_le_inc (o : Oscillator) (hinc : (TAB_LEN : ℚ) ≤ o.idx_inc)
    (hidx : 0 ≤ o.idx) (n : ℕ) :
    (o.renderN n).idx = o.idx + n * (o.idx_inc - (TAB_LEN : ℚ)) ∧
      (o.renderN n).idx_inc = o.idx_inc := by
  induction n with
  | zero => simp [Oscillator.renderN]
  | succ n ih =>
    obtain ⟨hI, hJ⟩ := ih
    have hd : 0 ≤ o.idx_inc - (TAB_LEN : ℚ) := by linarith
    have hnn : 0 ≤ (n : ℚ) * (o.idx_inc - (TAB_LEN : ℚ)) := by positivity
    have hcond : (TAB_LEN : ℚ) ≤ (o.renderN n).idx + (o.renderN n).idx_inc := by
      rw [hI, hJ]; linarith
    constructor
    · show ((o.renderN n).render).2.idx = _
      rw [render_snd_idx, if_pos hcond, hI, hJ]
      push_cast
      ring
    · show ((o.renderN n).render).2.idx_inc = _
      rw [render_snd_idx_inc, hJ]

/-- C1: a render call advances the accumulator by the current increment,
subtracts `TAB_LEN` exactly once when the advanced value is `≥ TAB_LEN`
(single subtraction, not a full modulo), and returns the wave table value at
the integer index obtained by truncating the wrapped accumulator (defined
whenever that index is in bounds; an out-of-bounds index yields `none`,
the model of the undefined read). -/
theorem render_steps_idx_and_reads_truncated (o : Oscillator) :
    ((o.render).2.idx =
      if (TAB_LEN : ℚ) ≤ o.idx + o.idx_inc then o.idx + o.idx_inc - (TAB_LEN : ℚ)
      else o.idx + o.idx_inc) ∧
    ((o.render).1 =
      if 0 ≤ truncQ ((o.render).2.idx) ∧ truncQ ((o.render).2.idx) < (TAB_LEN : ℤ)
      then some (o.wavetable (truncQ ((o.render).2.idx)).toNat)
      else none) :=
  ⟨rfl, rfl⟩

theorem render_idx_range_aux (o : Oscillator)
    (h0 : 0 ≤ o.idx) (h1 : o.idx < (TAB_LEN : ℚ))
    (h2 : 0 ≤ o.idx_inc) (h3 : o.idx_inc < (TAB_LEN : ℚ)) :
    0 ≤ (o.render).2.idx ∧ (o.render).2.idx < (TAB_LEN : ℚ) := by
  simp only [Oscillator.render]
  split <;> constructor <;> linarith

/-- C2: if the accumulator and the increment both lie in `[0, TAB_LEN)`
before a render call, the accumulator again lies in `[0, TAB_LEN)` after it,
so the invariant is preserved by every render call. -/
theorem render_preserves_idx_range (o : Oscillator)
    (h0 : 0 ≤ o.idx) (h1 : o.idx < (TAB_LEN : ℚ))
    (h2 : 0 ≤ o.idx_inc) (h3 : o.idx_inc < (TAB_LEN : ℚ)) :
    0 ≤ (o.render).2.idx ∧ (o.render).2.idx < (TAB_LEN : ℚ) :=
  render_idx_range_aux o h0 h1 h2 h3

/-- Witness for C2 at the concrete state `osc0`. -/
theorem render_preserves_idx_range_witness :
    0 ≤ (osc0.render).2.idx ∧ (osc0.render).2.idx < (TAB_LEN : ℚ) :=
  render_preserves_idx_range osc0 (by norm_num [osc0])
    (by norm_num [osc0, TAB_LEN]) (by norm_num [osc0])
    (by norm_num [osc0, TAB_LEN])

/-- At `f0 = fs` exactly, the increment is exactly `TAB_LEN`, so each render
wraps the accumulator back to exactly where it was: the state is a fixed
point of `render`. -/
theorem construct_nyquist_double_render_fix :
    ((Oscillator.construct 48000 48000).render).2 = Oscillator.construct 48000 48000 := by
  refine Oscillator.ext rfl ?_ rfl rfl rfl
  rw [render_snd_idx, construct_idx, construct_idx_inc]
  norm_num [TAB_LEN]

theorem construct_nyquist_double_renderN_fix (n : ℕ) :
    (Oscillator.construct 48000 48000).renderN n = Oscillator.construct 48000 48000 := by
  induction n with
  | zero => rfl
  | succ n ih =>
    show ((Oscillator.construct 48000 48000).renderN n).render.2 = _
    rw [ih, construct_nyquist_double_render_fix]

theorem construct_nyquist_double_render_value :
    ((Oscillator.construct 48000 48000).render).1 = some (tableInitFun 0) := by
  simp only [Oscillator.construct, Oscillator.setF0, Oscillator.render, truncQ, TAB_LEN]
  norm_num

/-- C3 counterexample: with `f0 = fs` exactly (so `idx_inc = TAB_LEN`), no
reachable render ever performs an out-of-bounds read — every render call
returns the in-bounds sample at index 0 — refuting the claim for the
boundary case `f0 = fs` it includes. -/
theorem oob_not_reachable_at_exact_fs :
    ¬ reachesOOB (Oscillator.construct 48000 48000) := by
  rintro ⟨n, hn⟩
  unfold oobAt at hn
  rw [construct_nyquist_double_renderN_fix n, construct_nyquist_double_render_value] at hn
  exact Option.noConfusion hn

/-- C3 amended: whenever the caller sets a frequency strictly beyond the
sample rate (`f0 > fs`, so `idx_inc > TAB_LEN`), some reachable render call
produces a wrapped accumulator still `≥ TAB_LEN` and hence an out-of-bounds
table read. -/
theorem render_oob_reachable_of_fs_lt_f0 (sample_rate f0 : ℚ)
    (hfs : 0 < sample_rate) (hf : sample_rate < f0) :
    reachesOOB (Oscillator.construct sample_rate f0) := by
  set o := Oscillator.construct sample_rate f0 with ho
  have hidx : o.idx = 0 := rfl
  have hinc : o.idx_inc = (TAB_LEN : ℚ) * f0 / sample_rate := rfl
  have htabpos : (0 : ℚ) < (TAB_LEN : ℚ) := by norm_num [TAB_LEN]
  have htab : (TAB_LEN : ℚ) < o.idx_inc := by
    rw [hinc, lt_div_iff₀ hfs]
    nlinarith
  have hdpos : 0 < o.idx_inc - (TAB_LEN : ℚ) := by linarith
  obtain ⟨n, hn⟩ := exists_nat_ge ((TAB_LEN : ℚ) / (o.idx_inc - (TAB_LEN : ℚ)))
  have hnd : (TAB_LEN : ℚ) ≤ n * (o.idx_inc - (TAB_LEN : ℚ)) := by
    rw [div_le_iff₀ hdpos] at hn
    exact hn
  refine ⟨n, ?_⟩
  unfold oobAt
  obtain ⟨hI, hJ⟩ := renderN_idx_of_tab_le_inc o (le_of_lt htab) (le_of_eq hidx.symm) n
  rw [hidx, zero_add] at hI
  have hnn : (0 : ℚ) ≤ n * (o.idx_inc - (TAB_LEN : ℚ)) := le_of_lt (lt_of_lt_of_le htabpos hnd)
  have hcond : (TAB_LEN : ℚ) ≤ (o.renderN n).idx + (o.renderN n).idx_inc := by
    rw [hI, hJ]; linarith
  have hidx2 : ((o.renderN n).render).2.idx =
      n * (o.idx_inc - (TAB_LEN : ℚ)) + (o.idx_inc - (TAB_LEN : ℚ)) := by
    rw [render_snd_idx, if_pos hcond, hI, hJ]; ring
  have hge : (TAB_LEN : ℚ) ≤ ((o.renderN n).render).2.idx := by
    rw [hidx2]; linarith
  rw [render_fst, if_neg]
  rintro ⟨-, hlt⟩
  have h0q : (0 : ℚ) ≤ ((o.renderN n).render).2.idx := le_trans (le_of_lt htabpos) hge
  rw [truncQ, if_pos h0q] at hlt
  have hfl : (TAB_LEN : ℤ) ≤ ⌊((o.renderN n).render).2.idx⌋ := by
    rw [Int.le_floor]
    push_cast
    exact_mod_cast hge
  exact absurd hlt (not_lt.mpr hfl)

/-- Witness for the amended C3 theorem at the concrete input
`fs = 48000`, `f0 = 96000`. -/
theorem render_oob_reachable_of_fs_lt_f0_witness :
    reachesOOB (Oscillator.construct 48000 96000) :=
  render_oob_reachable_of_fs_lt_f0 48000 96000 (by norm_num) (by norm_num)

/-- C4: `setF0` writes only the increment: the phase accumulator, the wave
table, the sample rate and the `f0` field are unchanged, and the next render
call wraps and reads starting from the accumulator value the state had
already reached (not from a reset index 0). -/
theorem setF0_touches_only_increment (o : Oscillator) (g : ℚ) :
    (o.setF0 g).idx = o.idx ∧
    (o.setF0 g).wavetable = o.wavetable ∧
    (o.setF0 g).fs = o.fs ∧
    (o.setF0 g).f0 = o.f0 ∧
    (((o.setF0 g).render).2.idx =
      if (TAB_LEN : ℚ) ≤ o.idx + (o.setF0 g).idx_inc
      then o.idx + (o.setF0 g).idx_inc - (TAB_LEN : ℚ)
      else o.idx + (o.setF0 g).idx_inc) :=
  ⟨rfl, rfl, rfl, rfl, rfl⟩

/-- C5: for every input frequency (negative, zero, or beyond Nyquist alike),
`setF0` sets the increment to exactly `TAB_LEN * f0_Hz / fs`, replacing the
previous increment, with no validation or clamping. -/
theorem setF0_sets_increment_unvalidated (o : Oscillator) (g : ℚ) :
    (o.setF0 g).idx_inc = (TAB_LEN : ℚ) * g / o.fs :=
  rfl

/-- The `f0` field is invariant under every single interface call. -/
theorem runOps_preserves_f0 (o : Oscillator) (ops : List Op) :
    (o.runOps ops).f0 = o.f0 := by
  induction ops generalizing o with
  | nil => rfl
  | cons op rest ih =>
    cases op with
    | setF0 g => exact (ih (o.setF0 g)).trans rfl
    | render => exact (ih ((o.render).2)).trans rfl

/-- The sine function moves points by no more than their distance. -/
theorem sin_dist_le (a b : ℝ) : |Real.sin a - Real.sin b| ≤ |a - b| := by
  rw [Real.sin_sub_sin, abs_mul, abs_mul]
  have h1 : |Real.sin ((a - b) / 2)| ≤ |(a - b) / 2| := Real.abs_sin_le_abs
  have h2 : |Real.cos ((a + b) / 2)| ≤ 1 := Real.abs_cos_le_one _
  have h3 : |(2 : ℝ)| = 2 := by norm_num
  have h4 : |(a - b) / 2| = |a - b| / 2 := by rw [abs_div]; norm_num
  calc |(2 : ℝ)| * |Real.sin ((a - b) / 2)| * |Real.cos ((a + b) / 2)|
      ≤ |(2 : ℝ)| * |Real.sin ((a - b) / 2)| * 1 :=
        mul_le_mul_of_nonneg_left h2 (by positivity)
    _ = 2 * |Real.sin ((a - b) / 2)| := by rw [h3]; ring
    _ ≤ 2 * (|a - b| / 2) := by rw [← h4]; linarith
    _ = |a - b| := by ring

/-- The decimal constant `M_2PI` is within `14/10^7` of the true `2*pi`. -/
theorem M_2PI_close : |M_2PI - 2 * Real.pi| ≤ 14 / 10000000 := by
  have hpi1 : 3.141592 < Real.pi := Real.pi_gt_d6
  have hpi2 : Real.pi < 3.141593 := Real.pi_lt_d6
  rw [abs_le, M_2PI]
  constructor <;> norm_num <;> linarith

/-- Each table entry is within `1/100000` of the ideal value
`sin(2*pi*i/TAB_LEN)`. -/
theorem table_entry_close_aux (i : ℕ) (hi : i < TAB_LEN) :
    |tableInitFun i - Real.sin (2 * Real.pi * i / (TAB_LEN : ℝ))| ≤ 1 / 100000 := by
  have hT : (TAB_LEN : ℝ) = 2048 := by norm_num [TAB_LEN]
  have h1 : |tableInitFun i - Real.sin (2 * Real.pi * i / (TAB_LEN : ℝ))|
      ≤ |M_2PI * i / (TAB_LEN : ℝ) - 2 * Real.pi * i / (TAB_LEN : ℝ)| :=
    sin_dist_le _ _
  have hi' : (i : ℝ) ≤ 2048 := by
    have : i ≤ 2048 := le_of_lt (lt_of_lt_of_le hi (by norm_num [TAB_LEN]))
    exact_mod_cast this
  have hinn : (0 : ℝ) ≤ (i : ℝ) := Nat.cast_nonneg i
  have hfrac0 : (0 : ℝ) ≤ (i : ℝ) / 2048 := by positivity
  have hfrac1 : (i : ℝ) / 2048 ≤ 1 := by
    rw [div_le_one (by norm_num : (0:ℝ) < 2048)]; exact hi'
  have hsplit : M_2PI * i / (TAB_LEN : ℝ) - 2 * Real.pi * i / (TAB_LEN : ℝ)
      = (M_2PI - 2 * Real.pi) * ((i : ℝ) / 2048) := by
    rw [hT]; ring
  have h2 : |M_2PI * i / (TAB_LEN : ℝ) - 2 * Real.pi * i / (TAB_LEN : ℝ)|
      ≤ 14 / 10000000 := by
    rw [hsplit, abs_mul, abs_of_nonneg hfrac0]
    calc |M_2PI - 2 * Real.pi| * ((i : ℝ) / 2048)
        ≤ (14 / 10000000) * 1 :=
          mul_le_mul M_2PI_close hfrac1 hfrac0 (by norm_num)
      _ = 14 / 10000000 := mul_one _
  calc |tableInitFun i - Real.sin (2 * Real.pi * i / (TAB_LEN : ℝ))|
      ≤ 14 / 10000000 := le_trans h1 h2
    _ ≤ 1 / 100000 := by norm_num

/-- C6: every table entry built at construction is within `1/100000` of
`sin(2*pi*i/TAB_LEN)`, and the table is never modified afterwards by `setF0`
or `render`. -/
theorem table_correct_and_immutable (i : ℕ) (hi : i < TAB_LEN)
    (o : Oscillator) (g : ℚ) :
    |tableInitFun i - Real.sin (2 * Real.pi * i / (TAB_LEN : ℝ))| ≤ 1 / 100000 ∧
    (o.setF0 g).wavetable = o.wavetable ∧
    ((o.render).2).wavetable = o.wavetable :=
  ⟨table_entry_close_aux i hi, rfl, rfl⟩

/-- Witness for C6 at the concrete index 0 and state `osc0`. -/
theorem table_correct_and_immutable_witness :
    |tableInitFun 0 - Real.sin (2 * Real.pi * ((0 : ℕ) : ℝ) / (TAB_LEN : ℝ))| ≤ 1 / 100000 ∧
    (osc0.setF0 440).wavetable = osc0.wavetable ∧
    ((osc0.render).2).wavetable = osc0.wavetable :=
  table_correct_and_immutable 0 (by norm_num [TAB_LEN]) osc0 440

/-- Range invariant helper: under in-range accumulator and increment, the
render call returns a defined sample and it is a sine value. -/
theorem render_returns_sine_aux (o : Oscillator) (hw : o.wavetable = tableInitFun)
    (h0 : 0 ≤ o.idx) (h1 : o.idx < (TAB_LEN : ℚ))
    (h2 : 0 ≤ o.idx_inc) (h3 : o.idx_inc < (TAB_LEN : ℚ)) :
    ∃ v : ℝ, (o.render).1 = some v ∧ -1 ≤ v ∧ v ≤ 1 := by
  obtain ⟨ha, hb⟩ := render_idx_range_aux o h0 h1 h2 h3
  have htr : truncQ ((o.render).2.idx) = ⌊(o.render).2.idx⌋ := by
    rw [truncQ, if_pos ha]
  have hge0 : 0 ≤ truncQ ((o.render).2.idx) := by
    rw [htr]; exact Int.floor_nonneg.mpr ha
  have hlt : truncQ ((o.render).2.idx) < (TAB_LEN : ℤ) := by
    rw [htr, Int.floor_lt]
    exact_mod_cast hb
  refine ⟨o.wavetable (truncQ ((o.render).2.idx)).toNat, ?_, ?_, ?_⟩
  · rw [render_fst, if_pos ⟨hge0, hlt⟩]
  · rw [hw, tableInitFun]; exact Real.neg_one_le_sin _
  · rw [hw, tableInitFun]; exact Real.sin_le_one _

/-- C7: under the valid-frequency range invariant, every sample returned by
a render call is defined and lies in the closed range `[-1, 1]`. -/
theorem render_value_in_unit_range (o : Oscillator) (hw : o.wavetable = tableInitFun)
    (h0 : 0 ≤ o.idx) (h1 : o.idx < (TAB_LEN : ℚ))
    (h2 : 0 ≤ o.idx_inc) (h3 : o.idx_inc < (TAB_LEN : ℚ)) :
    ∃ v : ℝ, (o.render).1 = some v ∧ -1 ≤ v ∧ v ≤ 1 :=
  render_returns_sine_aux o hw h0 h1 h2 h3

/-- Witness for C7 at the concrete state `oscT`. -/
theorem render_value_in_unit_range_witness :
    ∃ v : ℝ, (oscT.render).1 = some v ∧ -1 ≤ v ∧ v ≤ 1 :=
  render_value_in_unit_range oscT rfl (by norm_num [oscT])
    (by norm_num [oscT, TAB_LEN]) (by norm_num [oscT])
    (by norm_num [oscT, TAB_LEN])

theorem tableInitFun_18 : tableInitFun 18 = Real.sin (M_2PI * 18 / 2048) := by
  simp only [tableInitFun, TAB_LEN]
  norm_num

theorem tableInitFun_19 : tableInitFun 19 = Real.sin (M_2PI * 19 / 2048) := by
  simp only [tableInitFun, TAB_LEN]
  norm_num

/-- Adjacent table entries 18 and 19 differ by more than `1/1000`: the sample
at index 18 is not `near` the one at index 19 in any tolerance the scenario
could intend. -/
theorem table_gap_18_19 : 1 / 1000 < tableInitFun 19 - tableInitFun 18 := by
  rw [tableInitFun_18, tableInitFun_19]
  have hb1 : (0 : ℝ) < M_2PI * 19 / 2048 := by norm_num [M_2PI]
  have hb2 : M_2PI * 19 / 2048 ≤ 1 := by norm_num [M_2PI]
  have ha1 : (0 : ℝ) < M_2PI * 18 / 2048 := by norm_num [M_2PI]
  have h1 := Real.sin_gt_sub_cube hb1 hb2
  have h2 := Real.sin_lt ha1
  have hnum : M_2PI * 18 / 2048 + 1 / 1000
      < M_2PI * 19 / 2048 - (M_2PI * 19 / 2048) ^ 3 / 4 := by
    norm_num [M_2PI]
  linarith

theorem scenarioA_first_render_aux :
    ((Oscillator.construct 48000 440).render).1 = some (tableInitFun 18) := by
  simp only [Oscillator.construct, Oscillator.setF0, Oscillator.render, truncQ, TAB_LEN]
  norm_num
  rfl

theorem scenarioA_trunc_aux :
    truncQ (((Oscillator.construct 48000 440).render).2.idx) = 18 := by
  simp only [Oscillator.construct, Oscillator.setF0, Oscillator.render, truncQ, TAB_LEN]
  norm_num

/-- C8 counterexample: for the oscillator constructed with
`sample_rate = 48000`, `f0 = 440`, the first render call truncates the
accumulator `0 + 1408/75 ≈ 18.77` to index 18 — not 19 as the scenario
states — and returns the table value at index 18, which differs from the
claimed `table[19]` by more than `1/1000`. -/
theorem scenarioA_reads_index_18_not_19 :
    ((Oscillator.construct 48000 440).render).1 = some (tableInitFun 18) ∧
    truncQ (((Oscillator.construct 48000 440).render).2.idx) = 18 ∧
    (18 : ℤ) ≠ 19 ∧
    1 / 1000 < tableInitFun 19 - tableInitFun 18 :=
  ⟨scenarioA_first_render_aux, scenarioA_trunc_aux, by norm_num, table_gap_18_19⟩

/-- C8 amended: with `sample_rate = 48000`, `f0 = 440` the increment is
exactly `1408/75 ≈ 18.77`, and the first render call returns the table value
at index 18 (the truncation of `0 + 18.77`), approximately
`sin(2*pi*18/2048) ≈ 0.0552`. -/
theorem scenarioA_first_render_amended :
    (Oscillator.construct 48000 440).idx_inc = 1408 / 75 ∧
    |(Oscillator.construct 48000 440).idx_inc - 1877 / 100| ≤ 1 / 100 ∧
    ((Oscillator.construct 48000 440).render).1 = some (tableInitFun 18) ∧
    |tableInitFun 18 - 552 / 10000| ≤ 1 / 1000 := by
  refine ⟨?_, ?_, scenarioA_first_render_aux, ?_⟩
  · rw [construct_idx_inc]; norm_num [TAB_LEN]
  · rw [construct_idx_inc]; norm_num [TAB_LEN, abs_le]
  · rw [tableInitFun_18]
    have ha1 : (0 : ℝ) < M_2PI * 18 / 2048 := by norm_num [M_2PI]
    have ha2 : M_2PI * 18 / 2048 ≤ 1 := by norm_num [M_2PI]
    have h1 := Real.sin_lt ha1
    have h2 := Real.sin_gt_sub_cube ha1 ha2
    rw [abs_le]
    constructor
    · have hlow : (552 / 10000 : ℝ) - 1 / 1000
          ≤ M_2PI * 18 / 2048 - (M_2PI * 18 / 2048) ^ 3 / 4 := by
        norm_num [M_2PI]
      linarith
    · have hhigh : M_2PI * 18 / 2048 ≤ (552 / 10000 : ℝ) + 1 / 1000 := by
        norm_num [M_2PI]
      linarith

theorem scenarioC_idx_inc :
    (Oscillator.construct 48000 24000).idx_inc = 1024 := by
  rw [construct_idx_inc]; norm_num [TAB_LEN]

theorem scenarioC_render1 :
    ((Oscillator.construct 48000 24000).render).1 = some (tableInitFun 1024) := by
  simp only [Oscillator.construct, Oscillator.setF0, Oscillator.render, truncQ, TAB_LEN]
  norm_num
  rfl

theorem scenarioC_render2_val :
    (((Oscillator.construct 48000 24000).render).2.render).1 = some (tableInitFun 0) := by
  simp only [Oscillator.construct, Oscillator.setF0, Oscillator.render, truncQ, TAB_LEN]
  norm_num

theorem scenarioC_period :
    ((((Oscillator.construct 48000 24000).render).2).render).2
      = Oscillator.construct 48000 24000 := by
  refine Oscillator.ext rfl ?_ rfl rfl rfl
  simp only [Oscillator.construct, Oscillator.setF0, Oscillator.render, TAB_LEN]
  norm_num

theorem scenarioC_renderN_even (n : ℕ) :
    (Oscillator.construct 48000 24000).renderN (2 * n)
      = Oscillator.construct 48000 24000 := by
  induction n with
  | zero => rfl
  | succ n ih =>
    have h : 2 * (n + 1) = 2 * n + 1 + 1 := by ring
    rw [h]
    have h2 : (Oscillator.construct 48000 24000).renderN (2 * n + 1 + 1)
        = ((((Oscillator.construct 48000 24000).renderN (2 * n)).render).2.render).2 := rfl
    rw [h2, ih, scenarioC_period]

/-- C9: the oscillator constructed with `sample_rate = 48000`,
`f0 = 24000` (exactly Nyquist) has increment exactly 1024, and successive
render calls alternate between the table value at index 1024 and the table
value at index 0, a fixed two-point cycle. -/
theorem scenarioC_nyquist_two_point_cycle :
    (Oscillator.construct 48000 24000).idx_inc = 1024 ∧
    ∀ n : ℕ,
      (((Oscillator.construct 48000 24000).renderN (2 * n)).render).1
          = some (tableInitFun 1024) ∧
      (((Oscillator.construct 48000 24000).renderN (2 * n + 1)).render).1
          = some (tableInitFun 0) := by
  refine ⟨scenarioC_idx_inc, fun n => ⟨?_, ?_⟩⟩
  · rw [scenarioC_renderN_even n, scenarioC_render1]
  · have h2 : (Oscillator.construct 48000 24000).renderN (2 * n + 1)
        = (((Oscillator.construct 48000 24000).renderN (2 * n)).render).2 := rfl
    rw [h2, scenarioC_renderN_even n, scenarioC_render2_val]

/-- C10: the private `f0` field is never written: after construction and any
sequence of `setF0`/`render` calls it is still the uninitialized value
(`none` in the model). -/
theorem f0_field_never_written (sample_rate g : ℚ) (ops : List Op) :
    ((Oscillator.construct sample_rate g).runOps ops).f0 = none :=
  (runOps_preserves_f0 _ ops).trans rfl

end Osc
